/-
Verification of the signal-processing utility module `audlib/sig/util.py`.

Shallow embedding conventions:
- numpy 1-D arrays become Lean lists; rational-valued routines
  (`nextpow2`, `sample`, `normalize`, `quantize`) are embedded over `ℚ` so
  they stay executable; routines that intrinsically use transcendental
  operations (`fft`-based frequency responses, SNR scaling with
  `sqrt`/`10 ** (snr/10)`) are embedded over `ℝ`/`ℂ`.
- `x /= c` (an in-place numpy operation) is embedded by explicit state
  passing: `quantize` returns both its result and the post-call state of
  the caller's buffer.
- Python `assert` and raising indexing become `Option`.
- draws from the process-wide random source become explicit parameters.
-/
import Mathlib

namespace audlib

/-- Python `int.bit_length`, fuel-based so it is kernel-executable:
`(0).bit_length() = 0`, and `n.bit_length() = (n // 2).bit_length() + 1`
for `n > 0`.  The fuel argument is `n` itself at the call sites. -/
def bitLenAux : ℕ → ℕ → ℕ
  | 0, _ => 0
  | fuel + 1, n => if n = 0 then 0 else bitLenAux fuel (n / 2) + 1

/-- Python `n.bit_length()`. -/
def bit_length (n : ℕ) : ℕ := bitLenAux n n

/-- Embedding of `nextpow2(n) = 1 << (n-1).bit_length()`; Python `n-1` on positive ints
agrees with truncated subtraction for `n ≥ 1`. -/
def nextpow2 (n : ℕ) : ℕ := 1 <<< bit_length (n - 1)

/-- Embedding of `np.max(np.abs(x))`: the peak absolute amplitude of a signal.
For a non-empty list this equals the maximum of the absolute values
(every `|v|` is nonnegative, so seeding the fold with 0 is harmless;
numpy raises on an empty array, which no claim exercises). -/
def amax (x : List ℚ) : ℚ := (x.map (fun v => |v|)).foldr max 0

/-- Embedding of `normalize(x) = x / np.max(np.abs(x))` (elementwise). -/
def normalize (x : List ℚ) : List ℚ := x.map (fun v => v / amax x)

theorem bitLenAux_le_iff :
    ∀ fuel n k, n ≤ fuel → (bitLenAux fuel n ≤ k ↔ n < 2 ^ k) := by
  intro fuel
  induction fuel with
  | zero =>
    intro n k hn
    have hn0 : n = 0 := Nat.le_zero.mp hn
    subst hn0
    simp [bitLenAux, Nat.pos_pow_of_pos, Nat.two_pow_pos]
  | succ f ih =>
    intro n k hn
    by_cases h0 : n = 0
    · subst h0
      simp [bitLenAux, Nat.two_pow_pos]
    · rw [show bitLenAux (f + 1) n = bitLenAux f (n / 2) + 1 by simp [bitLenAux, h0]]
      cases k with
      | zero =>
        simp only [pow_zero]
        omega
      | succ j =>
        have hdiv : n / 2 ≤ f := by omega
        rw [Nat.succ_le_succ_iff, ih (n / 2) j hdiv, pow_succ,
          Nat.div_lt_iff_lt_mul (by norm_num : 0 < 2)]

theorem le_two_pow_bit_length (n : ℕ) : n ≤ 2 ^ bit_length (n - 1) := by
  have h := (bitLenAux_le_iff (n - 1) (n - 1) (bit_length (n - 1)) le_rfl).mp le_rfl
  omega

/-- C8: `nextpow2 n` is a power of two, is `≥ n`, no smaller power of two
is `≥ n`, and `nextpow2` fixes exact powers of two. -/
theorem nextpow2_spec (n : ℕ) (hn : 1 ≤ n) :
    (∃ k, nextpow2 n = 2 ^ k) ∧ n ≤ nextpow2 n ∧
      (∀ j, n ≤ 2 ^ j → nextpow2 n ≤ 2 ^ j) ∧
      (∀ k, n = 2 ^ k → nextpow2 n = n) := by
  have hpow : nextpow2 n = 2 ^ bit_length (n - 1) := by
    simp [nextpow2, Nat.shiftLeft_eq]
  have hge : n ≤ nextpow2 n := hpow ▸ le_two_pow_bit_length n
  refine ⟨⟨bit_length (n - 1), hpow⟩, hge, ?_, ?_⟩
  · intro j hj
    rw [hpow]
    have hsz : bit_length (n - 1) ≤ j :=
      (bitLenAux_le_iff (n - 1) (n - 1) j le_rfl).mpr (by omega)
    exact Nat.pow_le_pow_right (by norm_num) hsz
  · intro k hk
    have hle : nextpow2 n ≤ 2 ^ k := by
      have hsz : bit_length (n - 1) ≤ k :=
        (bitLenAux_le_iff (n - 1) (n - 1) k le_rfl).mpr (by omega)
      rw [hpow]
      exact Nat.pow_le_pow_right (by norm_num) hsz
    omega

/-- C8 witness: `nextpow2 5 = 8` territory, instantiated at `n = 5`. -/
theorem nextpow2_spec_witness :
    1 ≤ 5 ∧
      ((∃ k, nextpow2 5 = 2 ^ k) ∧ 5 ≤ nextpow2 5 ∧
        (∀ j, 5 ≤ 2 ^ j → nextpow2 5 ≤ 2 ^ j) ∧
        (∀ k, 5 = 2 ^ k → nextpow2 5 = 5)) :=
  ⟨by decide, nextpow2_spec 5 (by decide)⟩

theorem amax_cons (a : ℚ) (l : List ℚ) : amax (a :: l) = max |a| (amax l) := rfl

theorem amax_nonneg (x : List ℚ) : 0 ≤ amax x := by
  induction x with
  | nil => simp [amax]
  | cons a l ih =>
    rw [amax_cons]
    exact le_max_of_le_right ih

theorem abs_le_amax (x : List ℚ) : ∀ v ∈ x, |v| ≤ amax x := by
  induction x with
  | nil => simp
  | cons a l ih =>
    intro v hv
    rw [amax_cons]
    rcases List.mem_cons.mp hv with h | h
    · exact h ▸ le_max_left _ _
    · exact le_max_of_le_right (ih v h)

theorem amax_map_div (x : List ℚ) (M : ℚ) (hM : 0 < M) :
    amax (x.map (fun v => v / M)) = amax x / M := by
  induction x with
  | nil => simp [amax]
  | cons a l ih =>
    rw [List.map_cons, amax_cons, amax_cons, ih, abs_div, abs_of_pos hM,
      max_div_div_right (le_of_lt hM)]

/-- C10: peak normalization is idempotent: for every non-empty signal with
nonzero peak, `normalize(x)` has peak absolute value exactly 1, and
`normalize (normalize x) = normalize x` elementwise. -/
theorem normalize_idempotent (x : List ℚ) (hx : x ≠ []) (hM : amax x ≠ 0) :
    amax (normalize x) = 1 ∧ normalize (normalize x) = normalize x := by
  have hpos : 0 < amax x := lt_of_le_of_ne (amax_nonneg x) (Ne.symm hM)
  have h1 : amax (normalize x) = 1 := by
    rw [normalize, amax_map_div x (amax x) hpos, div_self hM]
  refine ⟨h1, ?_⟩
  rw [show normalize (normalize x) = (normalize x).map (fun v => v / amax (normalize x)) from rfl,
    h1]
  simp

/-- C10 witness. -/
theorem normalize_idempotent_witness :
    ([2, -4] : List ℚ) ≠ [] ∧ amax [2, -4] ≠ 0 ∧
      (amax (normalize [2, -4]) = 1 ∧ normalize (normalize [2, -4]) = normalize [2, -4]) :=
  ⟨by decide, by decide, normalize_idempotent [2, -4] (by decide) (by decide)⟩

/-- Embedding of `np.around` on a scalar: round half to even (banker's rounding). -/
def roundHalfEven (q : ℚ) : ℤ :=
  if q - ⌊q⌋ < 1/2 then ⌊q⌋
  else if 1/2 < q - ⌊q⌋ then ⌊q⌋ + 1
  else if 2 ∣ ⌊q⌋ then ⌊q⌋ else ⌊q⌋ + 1

/-- Embedding of `sample(x, length, num)`: asserts `len(x) >= length`, then for each
uniform draw `d` in `[0,1)` (the entries of `rand.rand(num)`, passed here
explicitly as `draws`) takes the slice
`x[int(around(d*(len(x)-length))) : ... + length]`.  The failed `assert`
becomes `none`. -/
def sample (x : List ℚ) (length : ℕ) (draws : List ℚ) : Option (List (List ℚ)) :=
  if length ≤ x.length then
    some (draws.map (fun d =>
      (x.drop (roundHalfEven (d * ((x.length - length : ℕ) : ℚ))).toNat).take length))
  else none

theorem roundHalfEven_nonneg (q : ℚ) (h : 0 ≤ q) : 0 ≤ roundHalfEven q := by
  have hf : (0 : ℤ) ≤ ⌊q⌋ := Int.le_floor.mpr (by exact_mod_cast h)
  unfold roundHalfEven
  split_ifs <;> omega

theorem roundHalfEven_le_of_lt (q : ℚ) (m : ℕ) (h : q < (m : ℚ)) :
    roundHalfEven q ≤ (m : ℤ) := by
  have hf : ⌊q⌋ < (m : ℤ) := by
    rw [Int.floor_lt]
    exact_mod_cast h
  unfold roundHalfEven
  split_ifs <;> omega

theorem roundHalfEven_zero : roundHalfEven 0 = 0 := by
  unfold roundHalfEven
  norm_num

theorem roundHalfEven_start_le (d : ℚ) (m : ℕ) (h0 : 0 ≤ d) (h1 : d < 1) :
    (roundHalfEven (d * (m : ℚ))).toNat ≤ m := by
  rcases Nat.eq_zero_or_pos m with hm | hm
  · subst hm
    simp [roundHalfEven_zero]
  · have hq : d * (m : ℚ) < (m : ℚ) := by
      have hmpos : (0 : ℚ) < (m : ℚ) := by exact_mod_cast hm
      calc d * (m : ℚ) < 1 * (m : ℚ) := by
            exact mul_lt_mul_of_pos_right h1 hmpos
        _ = (m : ℚ) := one_mul _
    exact Int.toNat_le.mpr (roundHalfEven_le_of_lt _ m hq)

/-- C6: `sample` fails exactly when the requested segment length exceeds
the signal length; otherwise it returns one segment per draw, each segment
a contiguous slice of `x` of length exactly `L`, starting at the integer
obtained by rounding `draw * (len(x) - L)` to the nearest integer, which
lies in `[0, len(x) - L]`. -/
theorem sample_spec (x : List ℚ) (L : ℕ) (draws : List ℚ)
    (hd : ∀ d ∈ draws, 0 ≤ d ∧ d < 1) :
    (sample x L draws = none ↔ x.length < L)
    ∧ ∀ segs, sample x L draws = some segs →
        segs.length = draws.length
        ∧ ∀ s ∈ segs, ∃ d ∈ draws,
            (roundHalfEven (d * ((x.length - L : ℕ) : ℚ))).toNat ≤ x.length - L
            ∧ s = (x.drop (roundHalfEven (d * ((x.length - L : ℕ) : ℚ))).toNat).take L
            ∧ s.length = L := by
  by_cases h : L ≤ x.length
  · constructor
    · rw [sample, if_pos h]
      constructor
      · intro hcontra
        exact absurd hcontra (by simp)
      · intro hlen
        omega
    · intro segs hsegs
      rw [sample, if_pos h, Option.some_inj] at hsegs
      subst hsegs
      refine ⟨List.length_map _ _, ?_⟩
      intro s hs
      rcases List.mem_map.mp hs with ⟨d, hdmem, hseq⟩
      rcases hd d hdmem with ⟨h0, h1⟩
      have hstart : (roundHalfEven (d * ((x.length - L : ℕ) : ℚ))).toNat ≤ x.length - L :=
        roundHalfEven_start_le d (x.length - L) h0 h1
      refine ⟨d, hdmem, hstart, hseq.symm, ?_⟩
      rw [← hseq]
      rw [List.length_take, List.length_drop]
      omega
  · constructor
    · rw [sample, if_neg h]
      simp
      omega
    · intro segs hsegs
      rw [sample, if_neg h] at hsegs
      exact absurd hsegs (by simp)

/-- C6 witness. -/
theorem sample_spec_witness :
    (∀ d ∈ ([0, 1/2, 99/100] : List ℚ), 0 ≤ d ∧ d < 1)
    ∧ ((sample [10, 20, 30, 40] 2 [0, 1/2, 99/100] = none ↔
          (([10, 20, 30, 40] : List ℚ)).length < 2)
      ∧ ∀ segs, sample [10, 20, 30, 40] 2 [0, 1/2, 99/100] = some segs →
          segs.length = ([0, 1/2, 99/100] : List ℚ).length
          ∧ ∀ s ∈ segs, ∃ d ∈ ([0, 1/2, 99/100] : List ℚ),
              (roundHalfEven (d * ((([10, 20, 30, 40] : List ℚ).length - 2 : ℕ) : ℚ))).toNat ≤
                ([10, 20, 30, 40] : List ℚ).length - 2
              ∧ s = (([10, 20, 30, 40] : List ℚ).drop
                  (roundHalfEven (d * ((([10, 20, 30, 40] : List ℚ).length - 2 : ℕ) : ℚ))).toNat).take 2
              ∧ s.length = 2) :=
  ⟨by norm_num [List.forall_mem_cons],
    sample_spec [10, 20, 30, 40] 2 [0, 1/2, 99/100] (by norm_num [List.forall_mem_cons])⟩

/-- The SNR argument of `add_noise`/`additive_noise`: a Python float that
may be `+inf`, `-inf`, finite, or the default `None`. -/
inductive SNR where
  | noSnr : SNR
  | fin : ℝ → SNR
  | posInf : SNR
  | negInf : SNR

/-- The length-adjustment step of `additive_noise`: if the signal is
longer than the noise (`xlen > nlen`), the noise is tiled
`int(ceil(xlen/nlen))` times and truncated to `xlen`
(`np.tile(n, ...)[:xlen]`); otherwise the noise is truncated (`n[:xlen]`).
`(xlen + nlen - 1) / nlen` is the ceiling division computed by
`int(np.ceil(xlen/nlen))`. -/
def tile_truncate (xlen : ℕ) (n : List ℝ) : List ℝ :=
  if n.length < xlen then
    (List.flatten (List.replicate ((xlen + n.length - 1) / n.length) n)).take xlen
  else n.take xlen

/-- Embedding of `a.dot(b)` for 1-D arrays: the sum of elementwise products. -/
def dot (a b : List ℝ) : ℝ := (List.zipWith (fun u v => u * v) a b).sum

/-- The final scaling step of `additive_noise`:
`nscale = sqrt(xe / 10**(snr/10.) / ne)` with `xe = x.dot(x)` and
`ne = nn.dot(nn)`, returning `nscale * nn`. -/
noncomputable def scale_to_snr (x nn : List ℝ) (db : ℝ) : List ℝ :=
  nn.map (fun v => Real.sqrt (dot x x / (10 : ℝ) ^ (db / 10) / dot nn nn) * v)

/-- Embedding of `additive_noise(x, n, snr)`.  The branches mirror the Python control
flow: `snr == inf` returns `np.zeros_like(x)` before any length
adjustment; otherwise the noise is length-adjusted, `snr == -inf` returns
it unscaled, `snr is None` first draws `snr = (rand.random()-0.25)*20`
(the draw `r` is passed explicitly), and the general formula applies the
SNR scaling. -/
noncomputable def additive_noise (x n : List ℝ) (snr : SNR) (r : ℝ) : List ℝ :=
  match snr with
  | SNR.posInf => List.replicate x.length 0
  | SNR.negInf => tile_truncate x.length n
  | SNR.noSnr => scale_to_snr x (tile_truncate x.length n) ((r - 1/4) * 20)
  | SNR.fin db => scale_to_snr x (tile_truncate x.length n) db

/-- Embedding of `add_noise(x, n, snr)`: returns the additive noise alone when
`snr == -inf`, else `x + additive_noise(x, n, snr)`. -/
noncomputable def add_noise (x n : List ℝ) (snr : SNR) (r : ℝ) : List ℝ :=
  match snr with
  | SNR.negInf => additive_noise x n snr r
  | _ => List.zipWith (fun a b => a + b) x (additive_noise x n snr r)

theorem zipWith_add_replicate_zero (x : List ℝ) :
    List.zipWith (fun a b => a + b) x (List.replicate x.length 0) = x := by
  induction x with
  | nil => rfl
  | cons a l ih => simp [List.replicate_succ, ih]

/-- C5: with SNR `+inf` the additive term is the all-zero sequence shaped
like the signal, and `add_noise` returns the signal exactly. -/
theorem add_noise_posInf (x n : List ℝ) (r : ℝ) :
    additive_noise x n SNR.posInf r = List.replicate x.length 0
    ∧ add_noise x n SNR.posInf r = x := by
  refine ⟨rfl, ?_⟩
  show List.zipWith (fun a b => a + b) x (List.replicate x.length 0) = x
  exact zipWith_add_replicate_zero x

/-- C3: with SNR `-inf`, `add_noise` returns exactly the tiled/truncated
noise (tiled then truncated to `len(x)` when the signal is longer,
truncated otherwise), and the result depends on `x` only through its
length. -/
theorem add_noise_negInf (x n : List ℝ) (hx : x ≠ []) (hn : n ≠ []) (r : ℝ) :
    add_noise x n SNR.negInf r
      = (if n.length < x.length
          then (List.flatten (List.replicate ((x.length + n.length - 1) / n.length) n)).take x.length
          else n.take x.length)
    ∧ ∀ (y : List ℝ) (r2 : ℝ), y.length = x.length →
        add_noise y n SNR.negInf r2 = add_noise x n SNR.negInf r := by
  constructor
  · rfl
  · intro y r2 hlen
    show tile_truncate y.length n = tile_truncate x.length n
    rw [hlen]

/-- C3 witness eligibility: concrete instantiation of `add_noise_negInf`. -/
theorem add_noise_negInf_witness :
    ([5, 6, 7] : List ℝ) ≠ [] ∧ ([1, 2] : List ℝ) ≠ [] ∧
      (add_noise [5, 6, 7] [1, 2] SNR.negInf 0
        = (if ([1, 2] : List ℝ).length < ([5, 6, 7] : List ℝ).length
            then (List.flatten (List.replicate
                ((([5, 6, 7] : List ℝ).length + ([1, 2] : List ℝ).length - 1) /
                  ([1, 2] : List ℝ).length) [1, 2])).take ([5, 6, 7] : List ℝ).length
            else ([1, 2] : List ℝ).take ([5, 6, 7] : List ℝ).length)
      ∧ ∀ (y : List ℝ) (r2 : ℝ), y.length = ([5, 6, 7] : List ℝ).length →
          add_noise y [1, 2] SNR.negInf r2 = add_noise [5, 6, 7] [1, 2] SNR.negInf 0) :=
  ⟨by simp, by simp, add_noise_negInf [5, 6, 7] [1, 2] (by simp) (by simp) 0⟩

theorem dot_cons (a b : ℝ) (l m : List ℝ) : dot (a :: l) (b :: m) = a * b + dot l m := by
  simp [dot]

theorem dot_self_nonneg (l : List ℝ) : 0 ≤ dot l l := by
  induction l with
  | nil => simp [dot]
  | cons a l ih =>
    rw [dot_cons]
    exact add_nonneg (mul_self_nonneg a) ih

theorem dot_map_mul_left (c : ℝ) (l : List ℝ) :
    dot (l.map (fun v => c * v)) (l.map (fun v => c * v)) = c ^ 2 * dot l l := by
  induction l with
  | nil => simp [dot]
  | cons a l ih =>
    rw [List.map_cons, dot_cons, dot_cons, ih]
    ring

/-- C4: for finite SNR, `additive_noise` length-adjusts the noise and
scales it by `sqrt(Es / 10^(snr/10) / En)`; consequently the output energy
is `Es * 10^(-snr/10)`, i.e. output energy over signal energy is
`10^(-snr/10)` (whenever the adjusted noise and the signal have nonzero
energy). -/
theorem additive_noise_fin (x n : List ℝ) (db r : ℝ) (hx : x ≠ []) (hn : n ≠ []) :
    additive_noise x n (SNR.fin db) r
      = (tile_truncate x.length n).map (fun v =>
          Real.sqrt (dot x x / (10 : ℝ) ^ (db / 10) /
            dot (tile_truncate x.length n) (tile_truncate x.length n)) * v)
    ∧ (dot (tile_truncate x.length n) (tile_truncate x.length n) ≠ 0 →
        dot (additive_noise x n (SNR.fin db) r) (additive_noise x n (SNR.fin db) r)
          = dot x x * (10 : ℝ) ^ (-(db / 10)))
    ∧ (dot x x ≠ 0 → dot (tile_truncate x.length n) (tile_truncate x.length n) ≠ 0 →
        dot (additive_noise x n (SNR.fin db) r) (additive_noise x n (SNR.fin db) r) / dot x x
          = (10 : ℝ) ^ (-(db / 10))) := by
  set nn := tile_truncate x.length n with hnn
  have hdef : additive_noise x n (SNR.fin db) r
      = nn.map (fun v => Real.sqrt (dot x x / (10 : ℝ) ^ (db / 10) / dot nn nn) * v) := rfl
  have hp : (0 : ℝ) < (10 : ℝ) ^ (db / 10) :=
    Real.rpow_pos_of_pos (by norm_num) _
  have hxnn : 0 ≤ dot x x := dot_self_nonneg x
  have hne : 0 ≤ dot nn nn := dot_self_nonneg nn
  have harg : 0 ≤ dot x x / (10 : ℝ) ^ (db / 10) / dot nn nn :=
    div_nonneg (div_nonneg hxnn (le_of_lt hp)) hne
  have henergy : dot nn nn ≠ 0 →
      dot (additive_noise x n (SNR.fin db) r) (additive_noise x n (SNR.fin db) r)
        = dot x x * (10 : ℝ) ^ (-(db / 10)) := by
    intro hnz
    rw [hdef, dot_map_mul_left, Real.sq_sqrt harg, div_mul_cancel₀ _ hnz,
      Real.rpow_neg (by norm_num : (0 : ℝ) ≤ 10), div_eq_mul_inv]
  refine ⟨hdef, henergy, ?_⟩
  intro hxz hnz
  rw [henergy hnz, mul_comm, mul_div_assoc, div_self hxz, mul_one]

/-- C4 witness eligibility: concrete instantiation of `additive_noise_fin`. -/
theorem additive_noise_fin_witness :
    ([1, 2] : List ℝ) ≠ [] ∧ ([3] : List ℝ) ≠ [] ∧
      (additive_noise [1, 2] [3] (SNR.fin 0) 0
        = (tile_truncate ([1, 2] : List ℝ).length [3]).map (fun v =>
            Real.sqrt (dot [1, 2] [1, 2] / (10 : ℝ) ^ ((0 : ℝ) / 10) /
              dot (tile_truncate ([1, 2] : List ℝ).length [3])
                (tile_truncate ([1, 2] : List ℝ).length [3])) * v)
      ∧ (dot (tile_truncate ([1, 2] : List ℝ).length [3])
            (tile_truncate ([1, 2] : List ℝ).length [3]) ≠ 0 →
          dot (additive_noise [1, 2] [3] (SNR.fin 0) 0) (additive_noise [1, 2] [3] (SNR.fin 0) 0)
            = dot [1, 2] [1, 2] * (10 : ℝ) ^ (-((0 : ℝ) / 10)))
      ∧ (dot [1, 2] [1, 2] ≠ 0 →
          dot (tile_truncate ([1, 2] : List ℝ).length [3])
            (tile_truncate ([1, 2] : List ℝ).length [3]) ≠ 0 →
          dot (additive_noise [1, 2] [3] (SNR.fin 0) 0) (additive_noise [1, 2] [3] (SNR.fin 0) 0) /
              dot [1, 2] [1, 2]
            = (10 : ℝ) ^ (-((0 : ℝ) / 10)))) :=
  ⟨by simp, by simp, additive_noise_fin [1, 2] [3] 0 0 (by simp) (by simp)⟩

/-- Python list/array indexing with a possibly negative index:
`l[i]` is `l[len(l) + i]` for `i < 0`, and raises (`none`) out of range. -/
def pyIndex (l : List ℚ) (i : ℤ) : Option ℚ :=
  let j := if i < 0 then (l.length : ℤ) + i else i
  if h : 0 ≤ j ∧ j.toNat < l.length then some (l.get ⟨j.toNat, h.2⟩) else none

/-- Embedding of `np.digitize(v, bins)` (with `right=False`) for monotonically
increasing `bins`: the number of bin edges `≤ v`. -/
def digitize (v : ℚ) (bins : List ℚ) : ℕ := bins.countP (fun b => decide (b ≤ v))

/-- Elementwise fallible map: `none` as soon as one element fails
(Python raises an `IndexError` out of the fancy-indexing step). -/
def mapOpt (f : ℚ → Option ℚ) : List ℚ → Option (List ℚ)
  | [] => some []
  | v :: vs =>
    match f v, mapOpt f vs with
    | some y, some ys => some (y :: ys)
    | _, _ => none

/-- Embedding of `np.linspace(-1, 1, 2**n+1, endpoint=True)`: the `2^n + 1` bin edges
`-1 + i * (2 / 2^n)`. -/
def bins0 (nb : ℕ) : List ℚ :=
  (List.range (2 ^ nb + 1)).map (fun i : ℕ => -1 + (i : ℚ) * (2 / 2 ^ nb))

/-- Embedding of `qvals = (bins[:-1] + bins[1:]) / 2`: the bin midpoints, computed
before the last edge is nudged to 1.01. -/
def qvals (nb : ℕ) : List ℚ :=
  List.zipWith (fun a b => (a + b) / 2) (bins0 nb) ((bins0 nb).drop 1)

/-- The bin-edge array after `bins[-1] = 1.01`. -/
def binsAdj (nb : ℕ) : List ℚ := (bins0 nb).dropLast ++ [101 / 100]

/-- Embedding of `quantize(x, n)`.  Here `x /= np.ma.max(np.abs(x))` mutates the caller's
buffer, so the embedding returns a pair: the function result
`qvals[np.digitize(x, bins) - 1]` (first component) and the caller-visible
state of `x` after the call (second component). -/
def quantize (x : List ℚ) (nb : ℕ) : Option (List ℚ) × List ℚ :=
  let xn := x.map (fun v => v / amax x)
  (mapOpt (fun v => pyIndex (qvals nb) ((digitize v (binsAdj nb) : ℤ) - 1)) xn, xn)

theorem bins0_length (nb : ℕ) : (bins0 nb).length = 2 ^ nb + 1 := by
  unfold bins0
  rw [List.length_map, List.length_range]

theorem bins0_getElem (nb i : ℕ) (hi : i < (bins0 nb).length) :
    (bins0 nb)[i] = -1 + (i : ℚ) * (2 / 2 ^ nb) := by
  unfold bins0
  rw [List.getElem_map, List.getElem_range]

theorem edges_length (nb : ℕ) : (bins0 nb).dropLast.length = 2 ^ nb := by
  simp only [List.length_dropLast, bins0_length, Nat.add_sub_cancel]

theorem edges_getElem (nb i : ℕ) (hi : i < (bins0 nb).dropLast.length) :
    (bins0 nb).dropLast[i] = -1 + (i : ℚ) * (2 / 2 ^ nb) := by
  rw [List.getElem_dropLast, bins0_getElem]

theorem edges_le_one (nb : ℕ) : ∀ b ∈ (bins0 nb).dropLast, b ≤ 1 := by
  intro b hb
  rcases List.mem_iff_getElem.mp hb with ⟨i, hi, hbi⟩
  rw [edges_getElem nb i hi] at hbi
  have hilt : i < 2 ^ nb := by
    have := edges_length nb
    omega
  have hpow : (0 : ℚ) < 2 ^ nb := by positivity
  have hle : (i : ℚ) ≤ (2 : ℚ) ^ nb - 1 := by
    have h2 : (i : ℚ) + 1 ≤ ((2 : ℚ) ^ nb) := by exact_mod_cast Nat.succ_le_of_lt hilt
    linarith
  rw [← hbi]
  have hkey : (i : ℚ) * (2 / 2 ^ nb) ≤ 2 := by
    rw [← mul_div_assoc, div_le_iff₀ hpow]
    linarith
  linarith

theorem neg_one_mem_edges (nb : ℕ) : (-1 : ℚ) ∈ (bins0 nb).dropLast := by
  have h0 : 0 < (bins0 nb).dropLast.length := by
    rw [edges_length]
    positivity
  have := List.getElem_mem h0
  rwa [edges_getElem nb 0 h0, Nat.cast_zero, zero_mul, add_zero] at this

theorem digitize_bounds (nb : ℕ) (v : ℚ) (hv1 : -1 ≤ v) (hv2 : v ≤ 1) :
    1 ≤ digitize v (binsAdj nb) ∧ digitize v (binsAdj nb) ≤ 2 ^ nb := by
  rw [digitize, binsAdj, List.countP_append]
  have hlast : List.countP (fun b => decide (b ≤ v)) [101 / 100] = 0 := by
    simp only [List.countP_cons, List.countP_nil]
    have : ¬((101 : ℚ) / 100 ≤ v) := by linarith
    simp [this]
  rw [hlast, add_zero]
  constructor
  · rw [Nat.one_le_iff_ne_zero, ← Nat.pos_iff_ne_zero, List.countP_pos_iff]
    exact ⟨-1, neg_one_mem_edges nb, by simpa using hv1⟩
  · calc List.countP (fun b => decide (b ≤ v)) (bins0 nb).dropLast
        ≤ (bins0 nb).dropLast.length := List.countP_le_length _
      _ = 2 ^ nb := edges_length nb

theorem digitize_at_peak (nb : ℕ) : digitize 1 (binsAdj nb) = 2 ^ nb := by
  rw [digitize, binsAdj, List.countP_append]
  have hlast : List.countP (fun b => decide (b ≤ (1 : ℚ))) [101 / 100] = 0 := by
    simp only [List.countP_cons, List.countP_nil]
    norm_num
  have hall : List.countP (fun b => decide (b ≤ (1 : ℚ))) (bins0 nb).dropLast
      = (bins0 nb).dropLast.length := by
    rw [List.countP_eq_length]
    intro b hb
    simpa using edges_le_one nb b hb
  rw [hlast, hall, edges_length, add_zero]

theorem qvals_length (nb : ℕ) : (qvals nb).length = 2 ^ nb := by
  simp only [qvals, List.length_zipWith, List.length_drop, bins0_length, Nat.add_sub_cancel]
  exact min_eq_right (Nat.le_succ _)

theorem qvals_getElem (nb i : ℕ) (hi : i < (qvals nb).length) :
    (qvals nb)[i] = -1 + (2 * (i : ℚ) + 1) / 2 ^ nb := by
  have hi2 : i < 2 ^ nb := by
    have := qvals_length nb
    omega
  have hA : i < (bins0 nb).length := by
    rw [bins0_length]
    omega
  have hB : 1 + i < (bins0 nb).length := by
    rw [bins0_length]
    omega
  simp only [qvals, List.getElem_zipWith, List.getElem_drop]
  rw [bins0_getElem nb i hA, bins0_getElem nb (1 + i) hB]
  have hpow : (2 : ℚ) ^ nb ≠ 0 := by positivity
  push_cast
  field_simp
  ring

theorem qvals_mem_range (nb : ℕ) : ∀ q ∈ qvals nb, -1 ≤ q ∧ q ≤ 1 := by
  intro q hq
  rcases List.mem_iff_getElem.mp hq with ⟨i, hi, hqi⟩
  rw [qvals_getElem nb i hi] at hqi
  have hi2 : i < 2 ^ nb := by
    have := qvals_length nb
    omega
  have hpow : (0 : ℚ) < 2 ^ nb := by positivity
  have hcast : (i : ℚ) + 1 ≤ ((2 : ℚ) ^ nb) := by exact_mod_cast Nat.succ_le_of_lt hi2
  constructor
  · rw [← hqi]
    have : (0 : ℚ) < (2 * (i : ℚ) + 1) / 2 ^ nb := by positivity
    linarith
  · rw [← hqi]
    have h1 : (2 * (i : ℚ) + 1) / 2 ^ nb ≤ 2 := by
      rw [div_le_iff₀ hpow]
      nlinarith
    linarith

theorem mapOpt_eq_some (f : ℚ → Option ℚ) (g : ℚ → ℚ) (l : List ℚ)
    (h : ∀ v ∈ l, f v = some (g v)) : mapOpt f l = some (l.map g) := by
  induction l with
  | nil => rfl
  | cons a l ih =>
    rw [List.map_cons, mapOpt, h a (List.mem_cons_self a l),
      ih (fun v hv => h v (List.mem_cons_of_mem a hv))]

theorem pyIndex_of_digitize (nb : ℕ) (c : ℕ) (h1 : 1 ≤ c) (h2 : c ≤ 2 ^ nb) :
    pyIndex (qvals nb) ((c : ℤ) - 1) = some ((qvals nb).getD (c - 1) 0) := by
  have hnn : ¬((c : ℤ) - 1 < 0) := by omega
  have htn : ((c : ℤ) - 1).toNat = c - 1 := by omega
  have hlt : c - 1 < (qvals nb).length := by
    rw [qvals_length]
    omega
  rw [pyIndex]
  simp only [hnn, if_false, htn]
  rw [dif_pos ⟨by omega, hlt⟩, List.get_eq_getElem, List.getD_eq_getElem (qvals nb) 0 hlt]

/-- The per-sample quantization map applied to each normalized sample. -/
def qstep (nb : ℕ) (v : ℚ) : ℚ := (qvals nb).getD (digitize v (binsAdj nb) - 1) 0

theorem qstep_spec (nb : ℕ) (v : ℚ) (hv1 : -1 ≤ v) (hv2 : v ≤ 1) :
    pyIndex (qvals nb) ((digitize v (binsAdj nb) : ℤ) - 1) = some (qstep nb v)
    ∧ qstep nb v ∈ qvals nb := by
  rcases digitize_bounds nb v hv1 hv2 with ⟨h1, h2⟩
  refine ⟨pyIndex_of_digitize nb _ h1 h2, ?_⟩
  have hlt : digitize v (binsAdj nb) - 1 < (qvals nb).length := by
    rw [qvals_length]
    omega
  rw [qstep, List.getD_eq_getElem (qvals nb) 0 hlt]
  exact List.getElem_mem hlt

theorem qstep_peak (nb : ℕ) : qstep nb 1 = 1 - 1 / 2 ^ nb := by
  have hlt : 2 ^ nb - 1 < (qvals nb).length := by
    rw [qvals_length]
    have : 0 < 2 ^ nb := Nat.pos_pow_of_pos nb (by norm_num)
    omega
  rw [qstep, digitize_at_peak, List.getD_eq_getElem (qvals nb) 0 hlt, qvals_getElem _ _ hlt]
  have hp : 1 ≤ 2 ^ nb := Nat.one_le_two_pow
  have hcast : ((2 ^ nb - 1 : ℕ) : ℚ) = (2 : ℚ) ^ nb - 1 := by
    push_cast [hp]
    ring
  rw [hcast]
  have hpow : (2 : ℚ) ^ nb ≠ 0 := by positivity
  field_simp
  ring

/-- C7: for a signal with nonzero peak and `n ≥ 1` bits, `quantize`
returns (without raising) a list of the same length as the input, every
value is one of the `2^n` bin midpoints (hence at most `2^n` distinct
levels), every value lies in `[-1, 1]`, and a sample at the normalized
peak value 1 maps to the uppermost bin midpoint `1 - 1/2^n`. -/
theorem quantize_spec (x : List ℚ) (nb : ℕ) (hnb : 1 ≤ nb) (hpk : amax x ≠ 0) :
    ∃ ys, (quantize x nb).1 = some ys
      ∧ ys.length = x.length
      ∧ (qvals nb).length = 2 ^ nb
      ∧ (∀ y ∈ ys, y ∈ qvals nb ∧ -1 ≤ y ∧ y ≤ 1)
      ∧ ∀ (i : ℕ) (hi : i < x.length) (hi2 : i < ys.length),
          x.get ⟨i, hi⟩ / amax x = 1 → ys.get ⟨i, hi2⟩ = 1 - 1 / 2 ^ nb := by
  have hpos : 0 < amax x := lt_of_le_of_ne (amax_nonneg x) (Ne.symm hpk)
  have hnorm : ∀ v ∈ x, -1 ≤ v / amax x ∧ v / amax x ≤ 1 := by
    intro v hv
    have habs : |v / amax x| ≤ 1 := by
      rw [abs_div, abs_of_pos hpos, div_le_one hpos]
      exact abs_le_amax x v hv
    exact abs_le.mp habs
  refine ⟨(x.map (fun v => v / amax x)).map (qstep nb), ?_, ?_, qvals_length nb, ?_, ?_⟩
  · show mapOpt _ (x.map (fun v => v / amax x)) = _
    apply mapOpt_eq_some
    intro v hv
    rcases List.mem_map.mp hv with ⟨w, hw, hwv⟩
    rcases hnorm w hw with ⟨h1, h2⟩
    rw [← hwv]
    exact (qstep_spec nb (w / amax x) h1 h2).1
  · simp
  · intro y hy
    rcases List.mem_map.mp hy with ⟨v, hv, hvy⟩
    rcases List.mem_map.mp hv with ⟨w, hw, hwv⟩
    rcases hnorm w hw with ⟨h1, h2⟩
    have hmem : y ∈ qvals nb := by
      rw [← hvy, ← hwv]
      exact (qstep_spec nb (w / amax x) h1 h2).2
    exact ⟨hmem, qvals_mem_range nb y hmem⟩
  · intro i hi hi2 hpeak
    have hmap : i < (x.map (fun v => v / amax x)).length := by
      simpa using hi
    rw [List.get_eq_getElem, List.getElem_map, List.getElem_map]
    rw [List.get_eq_getElem] at hpeak
    rw [hpeak]
    exact qstep_peak nb

/-- C7 witness. -/
theorem quantize_spec_witness :
    1 ≤ 1 ∧ amax [1, -2] ≠ 0 ∧
      (∃ ys, (quantize [1, -2] 1).1 = some ys
        ∧ ys.length = ([1, -2] : List ℚ).length
        ∧ (qvals 1).length = 2 ^ 1
        ∧ (∀ y ∈ ys, y ∈ qvals 1 ∧ -1 ≤ y ∧ y ≤ 1)
        ∧ ∀ (i : ℕ) (hi : i < ([1, -2] : List ℚ).length) (hi2 : i < ys.length),
            ([1, -2] : List ℚ).get ⟨i, hi⟩ / amax [1, -2] = 1 →
              ys.get ⟨i, hi2⟩ = 1 - 1 / 2 ^ 1) :=
  ⟨le_rfl, by norm_num [amax], quantize_spec [1, -2] 1 le_rfl (by norm_num [amax])⟩

/-- C2 counterexample: `quantize` does NOT leave the caller's buffer
unchanged: calling it on `x = [2]` leaves the buffer holding `[1]`. -/
theorem quantize_mutation_counterexample : (quantize [2] 1).2 ≠ [2] := by
  show ([2] : List ℚ).map (fun v => v / amax [2]) ≠ [2]
  norm_num [amax]

/-- C2 amended: the peak-normalization step of `quantize` operates in
place on the caller's buffer: after the call the buffer holds the
original samples divided by the original peak absolute amplitude, so the
input is preserved exactly when its peak amplitude is already 1. -/
theorem quantize_mutation (x : List ℚ) (nb : ℕ) :
    (quantize x nb).2 = x.map (fun v => v / amax x)
    ∧ (amax x = 1 → (quantize x nb).2 = x) := by
  refine ⟨rfl, ?_⟩
  intro h1
  show x.map (fun v => v / amax x) = x
  rw [h1]
  simp

/-- C2 amended-claim witness. -/
theorem quantize_mutation_witness :
    ((quantize [1, -1] 2).2 = ([1, -1] : List ℚ).map (fun v => v / amax [1, -1])
      ∧ (amax [1, -1] = 1 → (quantize [1, -1] 2).2 = [1, -1])) :=
  quantize_mutation [1, -1] 2

/-- Embedding of `FREQZ_CEILING = 1e5`, the default ceiling. -/
def FREQZ_CEILING : ℂ := 100000

/-- Embedding of `np.linspace(0, 2, num=nfft, endpoint=False)`: the normalized
frequency grid `k * (2 / nfft)`. -/
noncomputable def ww (n : ℕ) : List ℝ := (List.range n).map (fun k : ℕ => (k : ℝ) * (2 / n))

/-- Embedding of `np.fft.fft(h, n=nfft)`: the coefficient array zero-padded (or
truncated) to length `nfft` and transformed,
`X[k] = sum_{j<nfft} h[j] * exp(-2*pi*i*j*k/nfft)`. -/
noncomputable def fft (h : List ℂ) (n : ℕ) : List ℂ :=
  (List.range n).map (fun k : ℕ =>
    ∑ j ∈ Finset.range n,
      h.getD j 0 * Complex.exp (-(2 * (Real.pi : ℂ) * Complex.I * (j : ℂ) * (k : ℂ)) / (n : ℂ)))

/-- Embedding of `firfreqz(h, nfft)`. -/
noncomputable def firfreqz (h : List ℂ) (nfft : ℕ) : List ℝ × List ℂ := (ww nfft, fft h nfft)

/-- Writing values, in order, to the positions where a boolean mask is
true: the elementwise core of numpy boolean-mask assignment
`a[mask] = vals`.  Positions where the mask is false keep their old
value.  The patterns where the mask or the value list runs out early are
unreachable under the length checks of `maskAssign` and keep the old
values. -/
def scatter : List ℂ → List Bool → List ℂ → List ℂ
  | [], _, _ => []
  | _ :: xs, true :: ms, v :: vs => v :: scatter xs ms vs
  | x :: xs, true :: ms, [] => x :: scatter xs ms []
  | x :: xs, false :: ms, vs => x :: scatter xs ms vs
  | x :: xs, [], _ => x :: xs

/-- Boolean-mask assignment `a[mask] = vals` with an array right-hand
side: numpy requires the value array to have exactly as many entries as
the mask has true positions, or a single entry (which broadcasts); any
other size raises
`ValueError: NumPy boolean array indexing assignment cannot assign ...`
(embedded as `none`).  This is the semantics of
`hh[~zeros] = 1 / hh_inv` in `iirfreqz`. -/
def maskAssign (a : List ℂ) (mask : List Bool) (vals : List ℂ) : Option (List ℂ) :=
  if vals.length = mask.count true then some (scatter a mask vals)
  else if vals.length = 1 then
    some (scatter a mask (List.replicate (mask.count true) (vals.headD 0)))
  else none

/-- Boolean-mask assignment with a scalar right-hand side
(`hh[zeros] = ceiling`): a scalar always broadcasts, so this never
raises. -/
def maskAssignScalar (a : List ℂ) (mask : List Bool) (c : ℂ) : List ℂ :=
  scatter a mask (List.replicate (mask.count true) c)

/-- Embedding of `iirfreqz(h, nfft, ceiling)`, statement by statement:
`hh_inv = fft(h, n=nfft)`; `hh = np.zeros_like(hh_inv)`;
`zeros = hh_inv == 0` (a boolean mask); `hh[~zeros] = 1 / hh_inv`;
`hh[zeros] = ceiling`.  The right-hand side of the first masked
assignment is the FULL `nfft`-length array `1 / hh_inv` (numpy evaluates
it first, producing `inf` with a warning at zero bins — values that are
never consulted on a successful path, so `1/0 = 0` of Lean is
observationally equivalent), hence that assignment raises `ValueError`
(`none`) whenever the mask selects fewer than `nfft` positions and the
array cannot broadcast — that is, whenever some transform bin is exactly
zero and `nfft ≥ 2`. -/
noncomputable def iirfreqz (h : List ℂ) (nfft : ℕ) (ceiling : ℂ) :
    Option (List ℝ × List ℂ) :=
  match maskAssign (List.replicate (fft h nfft).length 0)
      (((fft h nfft).map (fun z => decide (z = 0))).map (fun b => !b))
      ((fft h nfft).map (fun z => 1 / z)) with
  | none => none
  | some hh1 =>
    some (ww nfft, maskAssignScalar hh1 ((fft h nfft).map (fun z => decide (z = 0))) ceiling)

/-- Embedding of `freqz(numerator, denominator, nfft, ceiling)`:
elementwise product of the FIR response of the numerator and the IIR
response of the denominator; a `ValueError` raised inside `iirfreqz`
propagates to the caller. -/
noncomputable def freqz (numerator denominator : List ℂ) (nfft : ℕ) (ceiling : ℂ) :
    Option (List ℝ × List ℂ) :=
  match iirfreqz denominator nfft ceiling with
  | none => none
  | some q =>
    some ((firfreqz numerator nfft).1,
      List.zipWith (fun a b => a * b) (firfreqz numerator nfft).2 q.2)

theorem fft_length (h : List ℂ) (n : ℕ) : (fft h n).length = n := by
  unfold fft
  rw [List.length_map, List.length_range]

theorem fft_getElem (h : List ℂ) (n k : ℕ) (hk : k < (fft h n).length) :
    (fft h n)[k] = ∑ j ∈ Finset.range n,
      h.getD j 0 * Complex.exp (-(2 * (Real.pi : ℂ) * Complex.I * (j : ℂ) * (k : ℂ)) / (n : ℂ)) := by
  unfold fft
  rw [List.getElem_map, List.getElem_range]

theorem getD_singleton_zero (j : ℕ) : ([(0 : ℂ)]).getD j 0 = 0 := by
  match j with
  | 0 => rfl
  | j + 1 => rfl

theorem fft_zero_list (n k : ℕ) (hk : k < (fft [(0 : ℂ)] n).length) :
    (fft [(0 : ℂ)] n)[k] = 0 := by
  rw [fft_getElem]
  apply Finset.sum_eq_zero
  intro j hj
  rw [getD_singleton_zero, zero_mul]

theorem getD_one_singleton (j : ℕ) (hj : j ≠ 0) : ([(1 : ℂ)]).getD j 0 = 0 := by
  match j with
  | 0 => exact absurd rfl hj
  | j + 1 => rfl

theorem fft_one_list (n k : ℕ) (hn : 1 ≤ n) (hk : k < (fft [(1 : ℂ)] n).length) :
    (fft [(1 : ℂ)] n)[k] = 1 := by
  rw [fft_getElem]
  rw [Finset.sum_eq_single_of_mem 0 (Finset.mem_range.mpr (by omega))]
  · simp
  · intro j hj hj0
    rw [getD_one_singleton j hj0, zero_mul]

theorem scatter_all_false (a : List ℂ) :
    ∀ (mask : List Bool) (vs : List ℂ), (∀ b ∈ mask, b = false) → scatter a mask vs = a := by
  induction a with
  | nil =>
    intro mask vs hm
    rfl
  | cons x xs ih =>
    intro mask vs hm
    match mask with
    | [] => rfl
    | b :: ms =>
      have hb : b = false := hm b (List.mem_cons_self b ms)
      subst hb
      show x :: scatter xs ms vs = x :: xs
      rw [ih ms vs (fun b hbm => hm b (List.mem_cons_of_mem _ hbm))]

theorem mask_no_zero (l : List ℂ) (hz : ∀ z ∈ l, z ≠ 0) :
    ((l.map (fun z => decide (z = 0))).map (fun b => !b)).count true = l.length
    ∧ scatter (List.replicate l.length 0)
        ((l.map (fun z => decide (z = 0))).map (fun b => !b)) (l.map (fun z => 1 / z))
      = l.map (fun z => 1 / z)
    ∧ ∀ b ∈ l.map (fun z => decide (z = 0)), b = false := by
  induction l with
  | nil => exact ⟨rfl, rfl, by simp⟩
  | cons a l ih =>
    have ha : decide (a = 0) = false := decide_eq_false (hz a (List.mem_cons_self a l))
    obtain ⟨ih1, ih2, ih3⟩ := ih (fun z hzl => hz z (List.mem_cons_of_mem a hzl))
    refine ⟨?_, ?_, ?_⟩
    · simp only [List.map_cons, ha, Bool.not_false, List.length_cons]
      rw [List.count_cons_self, ih1]
    · simp only [List.map_cons, ha, Bool.not_false, List.length_cons, List.replicate_succ]
      show (1 / a) :: scatter (List.replicate l.length 0) _ _ = _
      rw [ih2]
    · simp only [List.map_cons]
      intro b hb
      rcases List.mem_cons.mp hb with hh | hh
      · rw [hh, ha]
      · exact ih3 b hh

theorem iirfreqz_of_no_zero (h : List ℂ) (nfft : ℕ) (c : ℂ)
    (hz : ∀ z ∈ fft h nfft, z ≠ 0) :
    iirfreqz h nfft c = some (ww nfft, (fft h nfft).map (fun z => 1 / z)) := by
  obtain ⟨h1, h2, h3⟩ := mask_no_zero (fft h nfft) hz
  have hcond : ((fft h nfft).map (fun z => 1 / z)).length
      = (((fft h nfft).map (fun z => decide (z = 0))).map (fun b => !b)).count true := by
    rw [h1, List.length_map]
  unfold iirfreqz maskAssign
  rw [if_pos hcond, h2]
  show some (ww nfft, maskAssignScalar ((fft h nfft).map (fun z => 1 / z))
    ((fft h nfft).map (fun z => decide (z = 0))) c) = _
  unfold maskAssignScalar
  rw [scatter_all_false _ _ _ h3]

theorem fft_zero_pair : fft [(0 : ℂ)] 2 = [0, 0] := by
  apply List.ext_getElem
  · rw [fft_length]
    rfl
  · intro i h1 h2
    rw [fft_zero_list 2 i h1]
    rcases i with _ | _ | i
    · simp
    · simp
    · exfalso
      simp only [List.length_cons, List.length_nil] at h2
      omega

/-- C1 (code bug): at the claim's central input — identically-zero
denominator `[0]` with `nfft = 2` and the default ceiling — the transform
is zero at both bins, the mask `~zeros` selects no position, and
`hh[~zeros] = 1 / hh_inv` tries to assign the length-2 array `1/hh_inv`
to it, so numpy raises `ValueError` (embedded as `none`) instead of
returning the `ceiling` value at every bin as the claim and the spec
state.  The intended pointwise policy is unreachable for any input with
an exactly-zero bin and `nfft ≥ 2`. -/
theorem iirfreqz_zero_denominator_raises :
    iirfreqz [(0 : ℂ)] 2 FREQZ_CEILING = none := by
  unfold iirfreqz
  rw [fft_zero_pair]
  norm_num [maskAssign]

/-- C9: `freqz` with numerator `[1]` and denominator `[1]` succeeds (the
transform of `[1]` has no zero bin, so the masked assignments inside
`iirfreqz` are well-formed) and the returned response has value 1 at
every one of the `nfft` frequency bins. -/
theorem freqz_one_one (nfft : ℕ) (hn : 1 ≤ nfft) (c : ℂ) (k : ℕ) (hk : k < nfft) :
    ∃ p, freqz [(1 : ℂ)] [(1 : ℂ)] nfft c = some p
      ∧ p.2.length = nfft
      ∧ p.2.getD k 0 = 1 := by
  have hz : ∀ z ∈ fft [(1 : ℂ)] nfft, z ≠ 0 := by
    intro z hzm
    rcases List.mem_iff_getElem.mp hzm with ⟨i, hi, hzi⟩
    rw [fft_one_list nfft i hn hi] at hzi
    rw [← hzi]
    exact one_ne_zero
  have hiir := iirfreqz_of_no_zero [(1 : ℂ)] nfft c hz
  have hkf : k < (fft [(1 : ℂ)] nfft).length := by
    rw [fft_length]
    exact hk
  refine ⟨((firfreqz [(1 : ℂ)] nfft).1,
      List.zipWith (fun a b => a * b) (firfreqz [(1 : ℂ)] nfft).2
        ((fft [(1 : ℂ)] nfft).map (fun z => 1 / z))), ?_, ?_, ?_⟩
  · unfold freqz
    rw [hiir]
  · show (List.zipWith (fun a b => a * b) (fft [(1 : ℂ)] nfft)
      ((fft [(1 : ℂ)] nfft).map (fun z => 1 / z))).length = nfft
    rw [List.length_zipWith, List.length_map, fft_length, min_self]
  · have hklen : k < (List.zipWith (fun a b => a * b) (fft [(1 : ℂ)] nfft)
        ((fft [(1 : ℂ)] nfft).map (fun z => 1 / z))).length := by
      rw [List.length_zipWith, List.length_map, fft_length, min_self]
      exact hk
    show (List.zipWith (fun a b => a * b) (fft [(1 : ℂ)] nfft)
      ((fft [(1 : ℂ)] nfft).map (fun z => 1 / z))).getD k 0 = 1
    rw [List.getD_eq_getElem _ 0 hklen, List.getElem_zipWith, List.getElem_map,
      fft_one_list nfft k hn hkf]
    norm_num

/-- C9 witness. -/
theorem freqz_one_one_witness :
    1 ≤ 3 ∧ 1 < 3 ∧
      (∃ p, freqz [(1 : ℂ)] [(1 : ℂ)] 3 FREQZ_CEILING = some p
        ∧ p.2.length = 3
        ∧ p.2.getD 1 0 = 1) :=
  ⟨by norm_num, by norm_num, freqz_one_one 3 (by norm_num) FREQZ_CEILING 1 (by norm_num)⟩

end audlib
